import Mathlib

/-
  Shallow embedding of the common-decoders library (src/result.ts and
  src/decoders.ts): a Result algebra, a model of the JavaScript value
  universe the decoders inspect, and the decoder combinators, followed by
  theorems about their behaviour.
-/

namespace Decoders

/-- Result from result.ts: tagged union of a failure carrying an error and
an ok carrying a value. -/
inductive Result (E R : Type) where
  | failure (e : E)
  | ok (r : R)
deriving DecidableEq, Repr

/-- DecoderResult from decoders.ts: a Result whose error type is String. -/
abbrev DecoderResult (T : Type) := Result String T

/-- map from result.ts: applies f to the success value, passes a failure
through unchanged. -/
def map {E A B : Type} (f : A → B) : Result E A → Result E B
  | .ok a => .ok (f a)
  | .failure e => .failure e

/-- chain from result.ts: applies f (itself producing a Result) to the
success value, passes a failure through unchanged. -/
def chain {E A B : Type} (f : A → Result E B) : Result E A → Result E B
  | .ok a => f a
  | .failure e => .failure e

/-- The reducer step of sequence from result.ts: the accumulator is chained
with a function that maps over the next element, pushing its value onto the
accumulated list. -/
def seqStep {E R : Type} (acc : Result E (List R)) (v : Result E R) :
    Result E (List R) :=
  chain (fun xs => map (fun b => xs ++ [b]) v) acc

/-- sequence from result.ts: reduce over the list with seqStep starting
from ok of the empty list. -/
def sequence {E R : Type} (a : List (Result E R)) : Result E (List R) :=
  a.foldl seqStep (.ok [])

/-- The JavaScript value universe the decoders inspect: numbers (with NaN
kept apart since typeof NaN is number but isNaN holds), strings, booleans,
null, undefined, arrays, and plain objects given as ordered own-property
lists. -/
inductive JSValue where
  | vnum (n : Int)
  | vnan
  | vstr (s : String)
  | vbool (b : Bool)
  | vnull
  | vundefined
  | varr (xs : List JSValue)
  | vobj (fields : List (String × JSValue))

/-- The JavaScript typeof operator on the modelled value universe.  typeof
NaN is "number", typeof null is "object", and arrays and plain objects are
both of kind "object". -/
def typeofV : JSValue → String
  | .vnum _ => "number"
  | .vnan => "number"
  | .vstr _ => "string"
  | .vbool _ => "boolean"
  | .vundefined => "undefined"
  | .vnull => "object"
  | .varr _ => "object"
  | .vobj _ => "object"

/-- isObject from decoders.ts: the Object.prototype.toString tag equals
[object Object] exactly for plain objects. -/
def isObjectB : JSValue → Bool
  | .vobj _ => true
  | _ => false

/-- isPrimitive from decoders.ts: typeof number, typeof string, or the
undefined value.  Note booleans and null do not count. -/
def isPrimitiveB : JSValue → Bool
  | .vnum _ => true
  | .vnan => true
  | .vstr _ => true
  | .vundefined => true
  | _ => false

/-- Array.isArray on the modelled value universe. -/
def isArrayB : JSValue → Bool
  | .varr _ => true
  | _ => false

/-- The property key a numeric or textual JavaScript value is coerced to
when used in a bracket access; none for every other kind of value (this is
exactly the typeof-number-or-string test of enumValue). -/
def jsPropKey : JSValue → Option String
  | .vnum n => some (toString n)
  | .vnan => some "NaN"
  | .vstr s => some s
  | _ => none

/-- Strict equality value === v.valueOf() as used by literal: both numeric
and equal, or both textual and equal; NaN is never strictly equal to
anything. -/
def strictEq : JSValue → JSValue → Bool
  | .vnum a, .vnum b => a == b
  | .vstr a, .vstr b => a == b
  | _, _ => false

/-- Decoder from decoders.ts, with the dynamic value universe flattened:
a function from an input value to a DecoderResult. -/
abbrev Decoder := JSValue → DecoderResult JSValue

/-- Property read v[k] on an own-property list: the value at the first
matching key, or undefined when the key is absent. -/
def lookupProp (f : List (String × JSValue)) (k : String) : JSValue :=
  match f.find? (fun p => p.1 == k) with
  | some p => p.2
  | none => .vundefined

/-- hasOwnProperty from decoders.ts on an own-property list. -/
def hasOwnB (f : List (String × JSValue)) (k : String) : Bool :=
  f.any (fun p => p.1 == k)

/-- Property assignment r[k] = w on an own-property list: an existing key
keeps its position and gets the new value, a new key is appended. -/
def setProp : List (String × JSValue) → String → JSValue →
    List (String × JSValue)
  | [], k, w => [(k, w)]
  | p :: rest, k, w =>
      if p.1 == k then (k, w) :: rest else p :: setProp rest k w

/-- The keys of an own-property list (also used for field-decoder lists). -/
def keysOf {α : Type} (l : List (String × α)) : List String :=
  l.map Prod.fst

/-- optional from decoders.ts: an undefined input short-circuits to ok
undefined without invoking the wrapped decoder; every other input is
delegated to it unchanged. -/
def optional (decoder : Decoder) : Decoder := fun value =>
  match value with
  | .vundefined => .ok .vundefined
  | _ => decoder value

/-- union from decoders.ts: try each candidate decoder on the input in list
order, returning the first ok result; when the list is exhausted fail with
the fixed message. -/
def union : List Decoder → Decoder
  | [], _ => .failure "Value is not one of type"
  | decoder :: rest, input =>
      match decoder input with
      | .ok w => .ok w
      | .failure _ => union rest input

/-- The body of the inner loop of filterIntersection from decoders.ts: a
key of a decoded branch value that is an own property of the input is
written into the accumulator with the value read from the original input;
other keys leave the accumulator unchanged. -/
def fiWrite (f : List (String × JSValue)) (r' : List (String × JSValue))
    (kv : String × JSValue) : List (String × JSValue) :=
  if hasOwnB f kv.1 then setProp r' kv.1 (lookupProp f kv.1) else r'

/-- The inner loop of filterIntersection from decoders.ts for one decoded
branch value v: non-objects are skipped; for an object, fiWrite runs over
every key of v. -/
def fiStep (f : List (String × JSValue)) (r : List (String × JSValue)) :
    JSValue → List (String × JSValue)
  | .vobj g => g.foldl (fiWrite f) r
  | _ => r

/-- filterIntersection from decoders.ts: a primitive input, an array input,
and any other non-object input are returned unmodified; an object input
yields a fresh object built by folding fiStep over the decoded branch
values. -/
def filterIntersection (input : JSValue) (values : List JSValue) : JSValue :=
  if isPrimitiveB input then input
  else if isArrayB input then input
  else if !isObjectB input then input
  else
    match input with
    | .vobj f => .vobj (values.foldl (fiStep f) [])
    | _ => input

/-- intersection from decoders.ts: run every decoder on the same input,
sequence the results (first failure wins), and on success merge via
filterIntersection of the original input. -/
def intersection (decoders : List Decoder) : Decoder := fun input =>
  map (filterIntersection input) (sequence (decoders.map (fun d => d input)))

/-- The field loop of object from decoders.ts: iterate the field-decoder
list, stopping at the first failure; on each field read the input property
(undefined when absent), run the field decoder, and write the decoded value
into the accumulator object. -/
def objGo (f : List (String × JSValue)) :
    List (String × Decoder) → List (String × JSValue) →
    DecoderResult (List (String × JSValue))
  | [], acc => .ok acc
  | (key, decoder) :: rest, acc =>
      match decoder (if hasOwnB f key then lookupProp f key
                     else .vundefined) with
      | .failure e => .failure e
      | .ok w => objGo f rest (setProp acc key w)

/-- object from decoders.ts: fail with the fixed message when the input is
not of object kind, is an array, or is null; otherwise run the field loop
starting from ok of the empty object.  In the modelled value universe the
remaining object-kind values are exactly the plain objects. -/
def object (o : List (String × Decoder)) : Decoder := fun v =>
  if typeofV v ≠ "object" then .failure "Not an object"
  else if isArrayB v then .failure "Not an object"
  else
    match v with
    | .vnull => .failure "Not an object"
    | .vobj f => map JSValue.vobj (objGo f o [])
    | _ => .failure "Not an object"

/-- array from decoders.ts: fail with the fixed message when the input is
not an array; otherwise decode every element and sequence the results. -/
def array (decoder : Decoder) : Decoder := fun v =>
  match v with
  | .varr xs => map JSValue.varr (sequence (xs.map decoder))
  | _ => .failure "Not an array"

/-- An EnumLike object from decoders.ts: string keys mapping to numeric or
textual values (a numeric bracket access coerces its key to a string, so
the reverse entries of a numeric enum member live here as numeric-string
keys). -/
abbrev EnumMap := List (String × (Int ⊕ String))

/-- Bracket access e[k] on an EnumMap, none when the key is absent (the
value == null test of enumValue). -/
def lookupEnum (e : EnumMap) (k : String) : Option (Int ⊕ String) :=
  (e.find? (fun p => p.1 == k)).map Prod.snd

/-- The JSValue a second bracket access e[value] evaluates to: undefined
when absent, otherwise the stored numeric or textual value. -/
def enumEmbed : Option (Int ⊕ String) → JSValue
  | none => .vundefined
  | some (.inl n) => .vnum n
  | some (.inr s) => .vstr s

/-- enumValue from decoders.ts: fail when the input is not numeric or
textual; look the input up as a key, failing when the lookup yields
nothing; a numeric stored value is returned directly, while a textual
stored value is itself looked up as a key and whatever that second access
yields (possibly undefined) is returned inside ok. -/
def enumValue (e : EnumMap) : Decoder := fun v =>
  match jsPropKey v with
  | none => .failure "Not an enum value"
  | some k =>
      match lookupEnum e k with
      | none => .failure "Not an enum value"
      | some (.inl n) => .ok (.vnum n)
      | some (.inr s) => .ok (enumEmbed (lookupEnum e s))

/-- literal from decoders.ts: succeed with the captured constant exactly
when the input is numeric or textual and strictly equal to it. -/
def literal (value : JSValue) : Decoder := fun v =>
  if (typeofV v == "number" || typeofV v == "string") && strictEq value v
  then .ok value
  else .failure "Does not match literal value"

/-- number from decoders.ts: succeed exactly on non-NaN numbers. -/
def number : Decoder := fun v =>
  match v with
  | .vnum n => .ok (.vnum n)
  | .vnan => .failure "Not a number"
  | _ => .failure "Not a number"

/-- string from decoders.ts: succeed exactly on textual values. -/
def string : Decoder := fun v =>
  match v with
  | .vstr s => .ok (.vstr s)
  | _ => .failure "Not a string"

/-- boolean from decoders.ts: succeed exactly on the two boolean values. -/
def boolean : Decoder := fun v =>
  match v with
  | .vbool b => .ok (.vbool b)
  | _ => .failure "Not a boolean"

/-- Modelled from the spec: compose is exercised by the test suite but its
implementation file is not among the sources.  Per the specification it
chains an ordered list of decoders, each stage running only when all prior
stages succeeded, the first failure short-circuiting the remaining stages,
the final result being the ok value of the last stage or the first
failure; an empty chain passes the input through. -/
def compose : List Decoder → Decoder
  | [], v => .ok v
  | d :: rest, v => chain (compose rest) (d v)

/-! Lemmas about sequence. -/

theorem seqStep_failure {E R : Type} (e : E) (v : Result E R) :
    seqStep (.failure e) v = .failure e := rfl

theorem seqStep_ok_failure {E R : Type} (xs : List R) (e : E) :
    seqStep (.ok xs) (Result.failure (R := R) e) = .failure e := rfl

theorem seqStep_ok_ok {E R : Type} (xs : List R) (b : R) :
    seqStep (.ok xs) (Result.ok (E := E) b) = .ok (xs ++ [b]) := rfl

theorem foldl_seqStep_failure {E R : Type} (e : E) (l : List (Result E R)) :
    l.foldl seqStep (.failure e) = .failure e := by
  induction l with
  | nil => rfl
  | cons v l ih => exact ih

theorem foldl_seqStep_ok_map {E R : Type} (vs : List R) :
    ∀ xs : List R,
      (vs.map .ok).foldl seqStep (Result.ok (E := E) xs) = .ok (xs ++ vs) := by
  induction vs with
  | nil => intro xs; simp [List.foldl]
  | cons v vs ih =>
      intro xs
      have h := ih (xs ++ [v])
      simpa using h

theorem foldl_seqStep_ok_inv {E R : Type} :
    ∀ (l : List (Result E R)) (xs vs : List R),
      l.foldl seqStep (.ok xs) = .ok vs →
      ∃ ws, vs = xs ++ ws ∧ l = ws.map .ok := by
  intro l
  induction l with
  | nil =>
      intro xs vs h
      cases h
      exact ⟨[], by simp⟩
  | cons r l ih =>
      intro xs vs h
      rw [List.foldl_cons] at h
      cases r with
      | failure e =>
          rw [seqStep_ok_failure, foldl_seqStep_failure] at h
          cases h
      | ok b =>
          rw [seqStep_ok_ok] at h
          obtain ⟨ws, rfl, rfl⟩ := ih (xs ++ [b]) vs h
          exact ⟨b :: ws, by simp, by simp⟩

theorem sequence_ok_map {E R : Type} (vs : List R) :
    sequence (E := E) (vs.map .ok) = .ok vs :=
  foldl_seqStep_ok_map vs []

theorem sequence_ok_inv {E R : Type} {l : List (Result E R)} {vs : List R}
    (h : sequence l = .ok vs) : l = vs.map .ok := by
  obtain ⟨ws, hvs, hl⟩ := foldl_seqStep_ok_inv l [] vs h
  simpa [hvs] using hl

theorem sequence_first_failure {E R : Type} (vs : List R) (e : E)
    (l2 : List (Result E R)) :
    sequence (vs.map .ok ++ .failure e :: l2) = .failure e := by
  unfold sequence
  rw [List.foldl_append, foldl_seqStep_ok_map vs [], List.foldl_cons,
    seqStep_ok_failure, foldl_seqStep_failure]

/-! Lemmas about property lists and the object decoder. -/

theorem lookupProp_eq_vundefined {f : List (String × JSValue)} {k : String}
    (h : hasOwnB f k = false) : lookupProp f k = .vundefined := by
  have hf : f.find? (fun p => p.1 == k) = none := by
    rw [List.find?_eq_none]
    intro p hp hbeq
    have ha : f.any (fun p => p.1 == k) = true :=
      List.any_eq_true.mpr ⟨p, hp, hbeq⟩
    rw [hasOwnB] at h
    rw [h] at ha
    cases ha
  simp [lookupProp, hf]

theorem fieldInput_eq (f : List (String × JSValue)) (k : String) :
    (if hasOwnB f k then lookupProp f k else JSValue.vundefined)
      = lookupProp f k := by
  cases h : hasOwnB f k with
  | true => simp [h]
  | false => simp [h, lookupProp_eq_vundefined h]

theorem setProp_of_not_mem :
    ∀ (acc : List (String × JSValue)) (k : String) (w : JSValue),
      k ∉ keysOf acc → setProp acc k w = acc ++ [(k, w)] := by
  intro acc
  induction acc with
  | nil => intro k w _; rfl
  | cons p rest ih =>
      intro k w h
      have h1 : p.1 ≠ k := by
        intro he
        exact h (by simp [keysOf, he])
      have h2 : k ∉ keysOf rest := by
        intro hm
        exact h (by simp [keysOf] at hm ⊢; exact Or.inr hm)
      simp [setProp, h1, ih k w h2]

theorem mem_setProp :
    ∀ (acc : List (String × JSValue)) (k : String) (w : JSValue)
      (p : String × JSValue),
      p ∈ setProp acc k w → p = (k, w) ∨ p ∈ acc := by
  intro acc
  induction acc with
  | nil => intro k w p hp; simp [setProp] at hp; exact Or.inl hp
  | cons q rest ih =>
      intro k w p hp
      by_cases hq : q.1 = k
      · rw [setProp, if_pos (by simp [hq])] at hp
        rcases List.mem_cons.mp hp with h | h
        · exact Or.inl h
        · exact Or.inr (List.mem_cons_of_mem q h)
      · rw [setProp, if_neg (by simp [hq])] at hp
        rcases List.mem_cons.mp hp with h | h
        · exact Or.inr (h ▸ List.mem_cons_self q rest)
        · rcases ih k w p h with h' | h'
          · exact Or.inl h'
          · exact Or.inr (List.mem_cons_of_mem q h')

theorem mem_keysOf_setProp :
    ∀ (acc : List (String × JSValue)) (k : String) (w : JSValue)
      (x : String),
      x ∈ keysOf (setProp acc k w) ↔ x ∈ keysOf acc ∨ x = k := by
  intro acc
  induction acc with
  | nil => intro k w x; simp [setProp, keysOf]
  | cons q rest ih =>
      intro k w x
      by_cases hq : q.1 = k
      · rw [setProp, if_pos (by simp [hq])]
        simp [keysOf, hq]
        tauto
      · rw [setProp, if_neg (by simp [hq])]
        simp [keysOf] at ih ⊢
        rw [ih]
        tauto

/-- Extraction of the value inside an ok result, defaulting to undefined;
used only to state what the object decoder produces. -/
def getOkD : DecoderResult JSValue → JSValue
  | .ok w => w
  | .failure _ => .vundefined

/-- The field a successful object decode writes for one declared key: the
key paired with the decoded value of the corresponding input property. -/
def decodeField (f : List (String × JSValue)) (kd : String × Decoder) :
    String × JSValue :=
  (kd.1, getOkD (kd.2 (lookupProp f kd.1)))

theorem objGo_cons_failure {f : List (String × JSValue)} {key : String}
    {d : Decoder} {e : String} (rest : List (String × Decoder))
    (acc : List (String × JSValue)) (hd : d (lookupProp f key) = .failure e) :
    objGo f ((key, d) :: rest) acc = .failure e := by
  simp only [objGo, fieldInput_eq, hd]

theorem objGo_cons_ok {f : List (String × JSValue)} {key : String}
    {d : Decoder} {w : JSValue} (rest : List (String × Decoder))
    (acc : List (String × JSValue)) (hd : d (lookupProp f key) = .ok w) :
    objGo f ((key, d) :: rest) acc = objGo f rest (setProp acc key w) := by
  simp only [objGo, fieldInput_eq, hd]

theorem keysOf_cons {α : Type} (p : String × α) (l : List (String × α)) :
    keysOf (p :: l) = p.1 :: keysOf l := rfl

theorem keysOf_append {α : Type} (a b : List (String × α)) :
    keysOf (a ++ b) = keysOf a ++ keysOf b := by
  simp [keysOf]

theorem objGo_char (f : List (String × JSValue)) :
    ∀ (o : List (String × Decoder)) (acc : List (String × JSValue)),
      (keysOf o).Nodup → (∀ k, k ∈ keysOf o → k ∉ keysOf acc) →
      ∀ u, (objGo f o acc = .ok u ↔
        ((∀ kd ∈ o, ∃ w, kd.2 (lookupProp f kd.1) = .ok w) ∧
         u = acc ++ o.map (decodeField f))) := by
  intro o
  induction o with
  | nil =>
      intro acc _ _ u
      simp only [objGo, List.map_nil, List.append_nil]
      constructor
      · intro h; cases h; exact ⟨by simp, rfl⟩
      · rintro ⟨-, rfl⟩; rfl
  | cons kd o' ih =>
      intro acc hnd hdisj u
      obtain ⟨key, d⟩ := kd
      have hkey_acc : key ∉ keysOf acc :=
        hdisj key (by rw [keysOf_cons]; exact List.mem_cons_self _ _)
      have hnd' : (keysOf o').Nodup := by
        rw [keysOf_cons, List.nodup_cons] at hnd
        exact hnd.2
      have hkey_o' : key ∉ keysOf o' := by
        rw [keysOf_cons, List.nodup_cons] at hnd
        exact hnd.1
      cases hd : d (lookupProp f key) with
      | failure e =>
          rw [objGo_cons_failure o' acc hd]
          apply iff_of_false
          · intro h; cases h
          · rintro ⟨hall, -⟩
            obtain ⟨w, hw⟩ := hall (key, d) (by simp)
            have hw' : d (lookupProp f key) = .ok w := hw
            rw [hd] at hw'
            cases hw'
      | ok w =>
          rw [objGo_cons_ok o' acc hd, setProp_of_not_mem acc key w hkey_acc]
          have hdisj' : ∀ k, k ∈ keysOf o' → k ∉ keysOf (acc ++ [(key, w)]) := by
            intro k hk hmem
            rw [keysOf_append] at hmem
            have hkc : k ∈ keysOf ((key, d) :: o') := by
              rw [keysOf_cons]
              exact List.mem_cons_of_mem _ hk
            rcases List.mem_append.mp hmem with hm | hm
            · exact hdisj k hkc hm
            · have hke : k = key := by simpa [keysOf] using hm
              exact hkey_o' (hke ▸ hk)
          rw [ih (acc ++ [(key, w)]) hnd' hdisj' u]
          have hdf : decodeField f (key, d) = (key, w) := by
            simp [decodeField, hd, getOkD]
          constructor
          · rintro ⟨hall, rfl⟩
            refine ⟨?_, by simp [hdf]⟩
            intro kd' hkd'
            rcases List.mem_cons.mp hkd' with h | h
            · exact h ▸ ⟨w, hd⟩
            · exact hall kd' h
          · rintro ⟨hall, rfl⟩
            refine ⟨fun kd' h => hall kd' (List.mem_cons_of_mem _ h), ?_⟩
            simp [hdf]

theorem object_vobj_eq (o : List (String × Decoder))
    (f : List (String × JSValue)) :
    object o (.vobj f) = map JSValue.vobj (objGo f o []) := by
  simp [object, typeofV, isArrayB]

theorem object_ok_char (o : List (String × Decoder))
    (f : List (String × JSValue)) (hnd : (keysOf o).Nodup) (u : JSValue) :
    object o (.vobj f) = .ok u ↔
      ((∀ kd ∈ o, ∃ w, kd.2 (lookupProp f kd.1) = .ok w) ∧
       u = .vobj (o.map (decodeField f))) := by
  have hgo := objGo_char f o [] hnd (fun k _ => by simp [keysOf])
  rw [object_vobj_eq]
  cases hr : objGo f o [] with
  | failure e =>
      apply iff_of_false
      · intro h; cases h
      · rintro ⟨hall, -⟩
        have := (hgo (o.map (decodeField f))).mpr ⟨hall, by simp⟩
        rw [hr] at this
        cases this
  | ok r =>
      obtain ⟨hall, hr'⟩ := (hgo r).mp hr
      simp only [List.nil_append] at hr'
      constructor
      · intro h
        cases h
        exact ⟨hall, by rw [hr']⟩
      · rintro ⟨-, rfl⟩
        rw [hr']
        rfl

/-- Claim C1: sequence returns ok of the list of all success values iff
every element is ok; otherwise it returns the first failure in
left-to-right order, discarding every other result including later
failures (the tail after the first failure is arbitrary). -/
theorem claim_C1 {E R : Type} (vs : List R) (l l2 : List (Result E R))
    (e : E) :
    sequence (E := E) (vs.map .ok) = .ok vs ∧
    (sequence l = .ok vs → l = vs.map .ok) ∧
    sequence (vs.map .ok ++ .failure e :: l2) = .failure e :=
  ⟨sequence_ok_map vs, sequence_ok_inv, sequence_first_failure vs e l2⟩

/-- Claim C1 witness: the two concrete examples of the specification,
obtained from claim_C1 at concrete inputs. -/
theorem claim_C1_witness :
    ([Result.ok 1, Result.ok 2, Result.ok 3] : List (Result String Nat))
        = ([1, 2, 3] : List Nat).map Result.ok ∧
    sequence [Result.ok 1, Result.failure "e",
        Result.ok (E := String) (3 : Nat)] = .failure "e" :=
  ⟨(claim_C1 [1, 2, 3] [Result.ok 1, Result.ok 2, Result.ok 3] [] "e").2.1
      rfl,
   (claim_C1 [1] [] [Result.ok 3] "e").2.2⟩

/-- Claim C2: for a field-decoder mapping with distinct keys and a plain
object input on which all field decoders succeed, object returns ok of an
object whose keys are exactly the declared keys, holding the decoded
values; every input property whose name is not a declared key is absent
from the result. -/
theorem claim_C2 (o : List (String × Decoder)) (f : List (String × JSValue))
    (hnd : (keysOf o).Nodup)
    (hall : ∀ kd ∈ o, ∃ w, kd.2 (lookupProp f kd.1) = .ok w) :
    ∃ r, object o (.vobj f) = .ok (.vobj r) ∧
      keysOf r = keysOf o ∧
      (∀ kd ∈ o, ∀ w, kd.2 (lookupProp f kd.1) = .ok w → (kd.1, w) ∈ r) ∧
      (∀ k, k ∉ keysOf o → k ∉ keysOf r) := by
  refine ⟨o.map (decodeField f), ?_, ?_, ?_, ?_⟩
  · exact (object_ok_char o f hnd _).mpr ⟨hall, rfl⟩
  · simp [keysOf, decodeField, List.map_map, Function.comp]
  · intro kd hkd w hw
    have : decodeField f kd = (kd.1, w) := by
      simp [decodeField, hw, getOkD]
    exact this ▸ List.mem_map_of_mem (decodeField f) hkd
  · intro k hk hmem
    apply hk
    have : keysOf (o.map (decodeField f)) = keysOf o := by
      simp [keysOf, decodeField, List.map_map, Function.comp]
    rw [this] at hmem
    exact hmem

/-- Claim C2 witness: the specification example, object with a single
declared string field applied to an input with an extra property. -/
theorem claim_C2_witness :
    ∃ r, object [("a", string)]
        (.vobj [("a", .vstr "x"), ("b", .vnum 1)]) = .ok (.vobj r) ∧
      keysOf r = keysOf [(("a" : String), (string : Decoder))] ∧
      (∀ kd ∈ [(("a" : String), (string : Decoder))], ∀ w,
        kd.2 (lookupProp [("a", .vstr "x"), ("b", .vnum 1)] kd.1) = .ok w →
        (kd.1, w) ∈ r) ∧
      (∀ k, k ∉ keysOf [(("a" : String), (string : Decoder))] →
        k ∉ keysOf r) := by
  apply claim_C2
  · simp [keysOf]
  · intro kd hkd
    simp only [List.mem_singleton] at hkd
    subst hkd
    exact ⟨.vstr "x", rfl⟩

theorem objGo_first_failure (f : List (String × JSValue)) :
    ∀ (o1 : List (String × Decoder)) (acc : List (String × JSValue)),
      (∀ kd ∈ o1, ∃ w, kd.2 (lookupProp f kd.1) = .ok w) →
      ∀ (key : String) (d : Decoder) (o2 : List (String × Decoder))
        (e : String),
        d (lookupProp f key) = .failure e →
        objGo f (o1 ++ (key, d) :: o2) acc = .failure e := by
  intro o1
  induction o1 with
  | nil =>
      intro acc _ key d o2 e hd
      exact objGo_cons_failure o2 acc hd
  | cons kd o1' ih =>
      intro acc hall key d o2 e hd
      obtain ⟨key0, d0⟩ := kd
      obtain ⟨w, hw⟩ := hall (key0, d0) (by simp)
      have hw' : d0 (lookupProp f key0) = .ok w := hw
      rw [List.cons_append, objGo_cons_ok _ acc hw']
      exact ih _ (fun kd' h' => hall kd' (List.mem_cons_of_mem _ h'))
        key d o2 e hd

/-- Claim C3: object fails with the fixed message on any input that is not
of object kind, is an array, or is null; on a plain object it evaluates
field decoders in declaration order and returns the first field failure,
the field decoders after the failing one never influencing the result
(they are quantified arbitrarily); in particular the specification example
fails with the message of the first declared field. -/
theorem claim_C3 :
    (∀ (o : List (String × Decoder)) (v : JSValue),
      typeofV v ≠ "object" ∨ isArrayB v = true ∨ v = .vnull →
      object o v = .failure "Not an object") ∧
    (∀ (o1 o2 : List (String × Decoder)) (key : String) (d : Decoder)
        (f : List (String × JSValue)) (e : String),
      (∀ kd ∈ o1, ∃ w, kd.2 (lookupProp f kd.1) = .ok w) →
      d (lookupProp f key) = .failure e →
      object (o1 ++ (key, d) :: o2) (.vobj f) = .failure e) ∧
    object [("a", string), ("b", number)] (.vobj [("b", .vnum 1)])
      = .failure "Not a string" := by
  refine ⟨?_, ?_, rfl⟩
  · intro o v h
    cases v with
    | vobj f =>
        rcases h with h | h | h
        · exact absurd rfl h
        · simp [isArrayB] at h
        · cases h
    | vnull => rfl
    | vnum n => rfl
    | vnan => rfl
    | vstr s => rfl
    | vbool b => rfl
    | vundefined => rfl
    | varr xs => rfl
  · intro o1 o2 key d f e hall hd
    rw [object_vobj_eq, objGo_first_failure f o1 [] hall key d o2 e hd]
    rfl

/-- Claim C3 witness: a non-object input fails with the fixed message, and
the specification example object with fields a and b applied to an input
having only b fails with the message of field a, field b never being
evaluated. -/
theorem claim_C3_witness :
    object [("a", string)] (.varr []) = .failure "Not an object" ∧
    object ([] ++ ("a", string) :: [("b", number)])
        (.vobj [("b", .vnum 1)]) = .failure "Not a string" :=
  ⟨claim_C3.1 [("a", string)] (.varr []) (Or.inr (Or.inl rfl)),
   claim_C3.2.1 [] [("b", number)] "a" string [("b", .vnum 1)]
     "Not a string" (by simp) rfl⟩

/-- Claim C10: whenever object succeeds on a plain object input (the
declared keys being distinct), the keys of the result are exactly the
declared keys; in particular a declared field absent from the input whose
decoder sends undefined to ok undefined still appears in the result, with
value undefined. -/
theorem claim_C10 (o : List (String × Decoder))
    (f : List (String × JSValue)) (r : List (String × JSValue))
    (hnd : (keysOf o).Nodup) (h : object o (.vobj f) = .ok (.vobj r)) :
    keysOf r = keysOf o ∧
    ∀ kd ∈ o, hasOwnB f kd.1 = false → kd.2 .vundefined = .ok .vundefined →
      (kd.1, JSValue.vundefined) ∈ r := by
  obtain ⟨hall, hu⟩ := (object_ok_char o f hnd _).mp h
  have hr : r = o.map (decodeField f) := by
    cases hu
    rfl
  subst hr
  constructor
  · simp [keysOf, decodeField, List.map_map, Function.comp]
  · intro kd hkd habs hdu
    have hlo : lookupProp f kd.1 = .vundefined := lookupProp_eq_vundefined habs
    have : decodeField f kd = (kd.1, JSValue.vundefined) := by
      simp [decodeField, hlo, hdu, getOkD]
    exact this ▸ List.mem_map_of_mem (decodeField f) hkd

/-- Claim C10 witness: an object decoder with a single optional numeric
field applied to the empty object succeeds with the field present and
undefined. -/
theorem claim_C10_witness :
    keysOf [(("a" : String), JSValue.vundefined)]
        = keysOf [(("a" : String), (optional number : Decoder))] ∧
    ∀ kd ∈ [(("a" : String), (optional number : Decoder))],
      hasOwnB [] kd.1 = false → kd.2 .vundefined = .ok .vundefined →
      (kd.1, JSValue.vundefined) ∈ [(("a" : String), JSValue.vundefined)] :=
  claim_C10 [("a", optional number)] [] [("a", .vundefined)]
    (by simp [keysOf]) rfl

/-! Lemmas about union. -/

theorem union_cons_ok {d : Decoder} {v w : JSValue} (rest : List Decoder)
    (hd : d v = .ok w) : union (d :: rest) v = .ok w := by
  simp only [union, hd]

theorem union_cons_failure {d : Decoder} {v : JSValue} {e : String}
    (rest : List Decoder) (hd : d v = .failure e) :
    union (d :: rest) v = union rest v := by
  simp only [union, hd]

/-- Claim C4: union evaluates the candidates in list order; when every
earlier candidate fails and one succeeds, that success is returned whatever
the later candidates are (they are quantified arbitrarily, hence never
evaluated); when every candidate fails, the result is the fixed message,
whatever the individual failure reasons were. -/
theorem claim_C4 :
    (∀ (pre : List Decoder) (d : Decoder) (rest : List Decoder)
        (v w : JSValue),
      (∀ d' ∈ pre, ∃ e, d' v = .failure e) → d v = .ok w →
      union (pre ++ d :: rest) v = .ok w) ∧
    (∀ (ds : List Decoder) (v : JSValue),
      (∀ d ∈ ds, ∃ e, d v = .failure e) →
      union ds v = .failure "Value is not one of type") := by
  constructor
  · intro pre
    induction pre with
    | nil =>
        intro d rest v w _ hd
        exact union_cons_ok rest hd
    | cons d0 pre' ih =>
        intro d rest v w hall hd
        obtain ⟨e0, he0⟩ := hall d0 (List.mem_cons_self d0 pre')
        rw [List.cons_append, union_cons_failure _ he0]
        exact ih d rest v w (fun d' h => hall d' (List.mem_cons_of_mem _ h))
          hd
  · intro ds
    induction ds with
    | nil => intro v _; rfl
    | cons d0 ds' ih =>
        intro v hall
        obtain ⟨e0, he0⟩ := hall d0 (List.mem_cons_self d0 ds')
        rw [union_cons_failure _ he0]
        exact ih v (fun d' h => hall d' (List.mem_cons_of_mem _ h))

/-- Claim C4 witness: the specification example, a union of a cat object
decoder and a dog object decoder applied to an input matching the first
with an extra field matching the second: the first match wins and the
extra field is stripped; and a union whose single candidate fails yields
the fixed message. -/
theorem claim_C4_witness :
    union ([] ++ object [("type", literal (.vstr "cat")), ("meow", string)]
        :: [object [("type", literal (.vstr "dog")), ("bark", string)]])
      (.vobj [("type", .vstr "cat"), ("meow", .vstr "hi"),
        ("bark", .vstr "wolf")])
      = .ok (.vobj [("type", .vstr "cat"), ("meow", .vstr "hi")]) ∧
    union [number] (.vstr "a") = .failure "Value is not one of type" := by
  constructor
  · exact claim_C4.1 []
      (object [("type", literal (.vstr "cat")), ("meow", string)])
      [object [("type", literal (.vstr "dog")), ("bark", string)]]
      (.vobj [("type", .vstr "cat"), ("meow", .vstr "hi"),
        ("bark", .vstr "wolf")])
      (.vobj [("type", .vstr "cat"), ("meow", .vstr "hi")])
      (by intro d' h; cases h) rfl
  · apply claim_C4.2
    intro d hd
    simp only [List.mem_singleton] at hd
    subst hd
    exact ⟨"Not a number", rfl⟩

/-! Lemmas about compose. -/

theorem chain_compose_nil (r : DecoderResult JSValue) :
    chain (compose []) r = r := by
  cases r <;> rfl

theorem compose_append (ds2 : List Decoder) :
    ∀ (ds1 : List Decoder) (v w : JSValue), compose ds1 v = .ok w →
      compose (ds1 ++ ds2) v = compose ds2 w := by
  intro ds1
  induction ds1 with
  | nil =>
      intro v w h
      cases h
      rfl
  | cons d0 rest ih =>
      intro v w h
      rw [show compose (d0 :: rest) v = chain (compose rest) (d0 v) from
        rfl] at h
      cases h0 : d0 v with
      | failure e0 => rw [h0] at h; cases h
      | ok u =>
          rw [h0] at h
          rw [List.cons_append,
            show compose (d0 :: (rest ++ ds2)) v
              = chain (compose (rest ++ ds2)) (d0 v) from rfl, h0]
          exact ih u w h

/-- Claim C6: composition of decoders is strictly sequential and
fail-fast: a chain that succeeds continues the remaining stages from its
output; when the next stage fails, the overall result is that failure
whatever the stages after it are (they are quantified arbitrarily, hence
never invoked); and when the failing-free chain ends, the overall result
is the ok value of the last stage. -/
theorem claim_C6 (ds1 ds2 : List Decoder) (d : Decoder) (v w : JSValue)
    (e : String) :
    (compose ds1 v = .ok w → compose (ds1 ++ ds2) v = compose ds2 w) ∧
    (compose ds1 v = .ok w → d w = .failure e →
      compose (ds1 ++ d :: ds2) v = .failure e) ∧
    (compose ds1 v = .ok w → compose (ds1 ++ [d]) v = d w) := by
  refine ⟨compose_append ds2 ds1 v w, ?_, ?_⟩
  · intro h hd
    rw [compose_append (d :: ds2) ds1 v w h,
      show compose (d :: ds2) w = chain (compose ds2) (d w) from rfl, hd]
    rfl
  · intro h
    rw [compose_append [d] ds1 v w h,
      show compose [d] w = chain (compose []) (d w) from rfl,
      chain_compose_nil]

/-- Claim C6 witness: the chain of the string decoder followed by the
number decoder on a textual input fails at the second stage with the
number message, the third stage (boolean) never being invoked. -/
theorem claim_C6_witness :
    compose ([string] ++ number :: [boolean]) (.vstr "hello")
      = .failure "Not a number" :=
  (claim_C6 [string] [boolean] number (.vstr "hello") (.vstr "hello")
    "Not a number").2.1 rfl rfl

/-! Claims about enumValue. -/

/-- The modelled object of a heterogeneous TypeScript enum with a numeric
member A = 0 (and its generated reverse entry) and a string member
B = "x". -/
def hetEnum : EnumMap := [("0", .inr "A"), ("A", .inl 0), ("B", .inr "x")]

/-- Claim C7 counterexample: for the heterogeneous enum with string member
B = "x", the input "B" is a member name whose underlying value is "x",
yet the decoder returns ok undefined, not ok of the underlying value. -/
theorem claim_C7_counterexample :
    enumValue hetEnum (.vstr "B") = .ok .vundefined ∧
    (Result.ok JSValue.vundefined
      ≠ (Result.ok (.vstr "x") : DecoderResult JSValue)) := by
  refine ⟨rfl, ?_⟩
  intro h
  cases h

/-- Claim C7 (amended): enumValue fails with the fixed message when the
input is not numeric or textual, or when its lookup in the mapping yields
nothing; an input that is a member name whose underlying value is numeric
yields ok of that value; an input that is a member name whose underlying
value is a string s yields ok of the mapping re-applied to s (possibly ok
undefined); and an input that is a numeric value whose reverse entry names
a member mapping back to it yields ok of that value directly. -/
theorem claim_C7 :
    (∀ (e : EnumMap) (v : JSValue), jsPropKey v = none →
      enumValue e v = .failure "Not an enum value") ∧
    (∀ (e : EnumMap) (v : JSValue) (k : String), jsPropKey v = some k →
      lookupEnum e k = none →
      enumValue e v = .failure "Not an enum value") ∧
    (∀ (e : EnumMap) (s : String) (n : Int),
      lookupEnum e s = some (.inl n) →
      enumValue e (.vstr s) = .ok (.vnum n)) ∧
    (∀ (e : EnumMap) (s t : String),
      lookupEnum e s = some (.inr t) →
      enumValue e (.vstr s) = .ok (enumEmbed (lookupEnum e t))) ∧
    (∀ (e : EnumMap) (n : Int) (s : String),
      lookupEnum e (toString n) = some (.inr s) →
      lookupEnum e s = some (.inl n) →
      enumValue e (.vnum n) = .ok (.vnum n)) := by
  refine ⟨?_, ?_, ?_, ?_, ?_⟩
  · intro e v h
    simp [enumValue, h]
  · intro e v k h1 h2
    simp [enumValue, h1, h2]
  · intro e s n h
    simp [enumValue, jsPropKey, h]
  · intro e s t h
    simp [enumValue, jsPropKey, h]
  · intro e n s h1 h2
    simp [enumValue, jsPropKey, h1, h2, enumEmbed]

/-- The modelled object of the numeric test enum with members foo = 0,
bar = 3, baz = 4 and the generated reverse entries. -/
def testEnum : EnumMap :=
  [("foo", .inl 0), ("bar", .inl 3), ("baz", .inl 4),
   ("0", .inr "foo"), ("3", .inr "bar"), ("4", .inr "baz")]

/-- Claim C7 witness: on the numeric test enum, a non-textual non-numeric
input fails, an out-of-range number fails, a member name resolves to its
value, and a valid underlying value resolves to itself. -/
theorem claim_C7_witness :
    enumValue testEnum .vnull = .failure "Not an enum value" ∧
    enumValue testEnum (.vnum 2) = .failure "Not an enum value" ∧
    enumValue testEnum (.vstr "bar") = .ok (.vnum 3) ∧
    enumValue testEnum (.vnum 3) = .ok (.vnum 3) :=
  ⟨claim_C7.1 testEnum .vnull rfl,
   claim_C7.2.1 testEnum (.vnum 2) "2" rfl rfl,
   claim_C7.2.2.1 testEnum "bar" 3 rfl,
   claim_C7.2.2.2.2 testEnum 3 "bar" rfl rfl⟩

/-- Claim C8: optional maps an undefined input to ok undefined whatever
the wrapped decoder is (it is quantified arbitrarily, hence never
invoked); every other input, null included, is delegated to the wrapped
decoder unchanged; in particular optional number on null fails with the
number message. -/
theorem claim_C8 (d : Decoder) (v : JSValue) :
    optional d .vundefined = .ok .vundefined ∧
    (v ≠ .vundefined → optional d v = d v) ∧
    optional number .vnull = .failure "Not a number" := by
  refine ⟨rfl, ?_, rfl⟩
  intro hv
  cases v with
  | vundefined => exact absurd rfl hv
  | vnum n => rfl
  | vnan => rfl
  | vstr s => rfl
  | vbool b => rfl
  | vnull => rfl
  | varr xs => rfl
  | vobj f => rfl

/-- Claim C8 witness: optional number delegates the null input to the
number decoder. -/
theorem claim_C8_witness :
    optional number .vnull = number .vnull :=
  (claim_C8 number .vnull).2.1 (by intro h; cases h)

/-- Claim C9 counterexample: the library decoder enumValue on the
heterogeneous enum (a decoder from arbitrary inputs to values of the enum,
so its outputs are admissible inputs) maps the member name B to ok
undefined, and re-running it on undefined does not return that same ok:
idempotence fails for this repository decoder. -/
theorem claim_C9_counterexample :
    enumValue hetEnum (.vstr "B") = .ok .vundefined ∧
    enumValue hetEnum .vundefined ≠ .ok .vundefined := by
  refine ⟨rfl, ?_⟩
  intro h
  cases h

/-- Claim C9 (amended): the primitive decoders string, number and boolean
are idempotent: whenever one returns ok r on an input, re-running it on r
returns the same ok r. -/
theorem claim_C9 (v r : JSValue) :
    (string v = .ok r → string r = .ok r) ∧
    (number v = .ok r → number r = .ok r) ∧
    (boolean v = .ok r → boolean r = .ok r) := by
  refine ⟨?_, ?_, ?_⟩ <;> intro h <;> cases v <;> (cases h <;> rfl)

/-- Claim C9 witness: the string decoder re-applied to its own successful
output. -/
theorem claim_C9_witness :
    string (.vstr "x") = .ok (.vstr "x") :=
  (claim_C9 (.vstr "x") (.vstr "x")).1 rfl

/-! Lemmas about intersection. -/

theorem fiWrite_values {f r : List (String × JSValue)}
    (hr : ∀ p ∈ r, p.2 = lookupProp f p.1) (kv : String × JSValue) :
    ∀ p ∈ fiWrite f r kv, p.2 = lookupProp f p.1 := by
  intro p hp
  cases h : hasOwnB f kv.1 with
  | true =>
      rw [fiWrite, if_pos h] at hp
      rcases mem_setProp r kv.1 (lookupProp f kv.1) p hp with h' | h'
      · subst h'; rfl
      · exact hr p h'
  | false =>
      rw [fiWrite, if_neg (by simp [h])] at hp
      exact hr p hp

theorem foldl_fiWrite_values {f : List (String × JSValue)} :
    ∀ (g : List (String × JSValue)) (r : List (String × JSValue)),
      (∀ p ∈ r, p.2 = lookupProp f p.1) →
      ∀ p ∈ g.foldl (fiWrite f) r, p.2 = lookupProp f p.1 := by
  intro g
  induction g with
  | nil => intro r hr; exact hr
  | cons kv g' ih =>
      intro r hr
      rw [List.foldl_cons]
      exact ih (fiWrite f r kv) (fiWrite_values hr kv)

theorem mem_keysOf_fiWrite {f : List (String × JSValue)}
    (r : List (String × JSValue)) (kv : String × JSValue) (x : String) :
    x ∈ keysOf (fiWrite f r kv) ↔
      x ∈ keysOf r ∨ (x = kv.1 ∧ hasOwnB f x = true) := by
  cases h : hasOwnB f kv.1 with
  | true =>
      rw [fiWrite, if_pos h, mem_keysOf_setProp]
      constructor
      · rintro (hm | rfl)
        · exact Or.inl hm
        · exact Or.inr ⟨rfl, h⟩
      · rintro (hm | ⟨rfl, -⟩)
        · exact Or.inl hm
        · exact Or.inr rfl
  | false =>
      rw [fiWrite, if_neg (by simp [h])]
      constructor
      · exact Or.inl
      · rintro (hm | ⟨rfl, hx⟩)
        · exact hm
        · rw [h] at hx; cases hx

theorem mem_keysOf_foldl_fiWrite {f : List (String × JSValue)} :
    ∀ (g : List (String × JSValue)) (r : List (String × JSValue))
      (x : String),
      x ∈ keysOf (g.foldl (fiWrite f) r) ↔
        x ∈ keysOf r ∨ (hasOwnB f x = true ∧ x ∈ keysOf g) := by
  intro g
  induction g with
  | nil => intro r x; simp [keysOf]
  | cons kv g' ih =>
      intro r x
      rw [List.foldl_cons, ih, mem_keysOf_fiWrite, keysOf_cons,
        List.mem_cons]
      by_cases hx : x = kv.1 <;> tauto

theorem fiStep_values {f r : List (String × JSValue)}
    (hr : ∀ p ∈ r, p.2 = lookupProp f p.1) (v : JSValue) :
    ∀ p ∈ fiStep f r v, p.2 = lookupProp f p.1 := by
  cases v with
  | vobj g => exact foldl_fiWrite_values g r hr
  | vnum n => exact hr
  | vnan => exact hr
  | vstr s => exact hr
  | vbool b => exact hr
  | vnull => exact hr
  | vundefined => exact hr
  | varr xs => exact hr

theorem mem_keysOf_fiStep {f : List (String × JSValue)}
    (r : List (String × JSValue)) (v : JSValue) (x : String) :
    x ∈ keysOf (fiStep f r v) ↔
      x ∈ keysOf r ∨
        (hasOwnB f x = true ∧ ∃ g, v = .vobj g ∧ x ∈ keysOf g) := by
  cases v with
  | vobj g =>
      rw [show fiStep f r (.vobj g) = g.foldl (fiWrite f) r from rfl,
        mem_keysOf_foldl_fiWrite]
      simp only [JSValue.vobj.injEq]
      constructor
      · rintro (hm | ⟨hx, hg⟩)
        · exact Or.inl hm
        · exact Or.inr ⟨hx, g, rfl, hg⟩
      · rintro (hm | ⟨hx, g', rfl, hg⟩)
        · exact Or.inl hm
        · exact Or.inr ⟨hx, hg⟩
  | vnum n => simp [fiStep]
  | vnan => simp [fiStep]
  | vstr s => simp [fiStep]
  | vbool b => simp [fiStep]
  | vnull => simp [fiStep]
  | vundefined => simp [fiStep]
  | varr xs => simp [fiStep]

theorem mem_keysOf_foldl_fiStep {f : List (String × JSValue)} :
    ∀ (vs : List JSValue) (r : List (String × JSValue)) (x : String),
      x ∈ keysOf (vs.foldl (fiStep f) r) ↔
        x ∈ keysOf r ∨ (hasOwnB f x = true ∧
          ∃ v ∈ vs, ∃ g, v = .vobj g ∧ x ∈ keysOf g) := by
  intro vs
  induction vs with
  | nil => intro r x; simp
  | cons v vs' ih =>
      intro r x
      rw [List.foldl_cons, ih, mem_keysOf_fiStep]
      constructor
      · rintro ((hm | ⟨hx, g, hvg, hg⟩) | ⟨hx, v', hv', g, hvg, hg⟩)
        · exact Or.inl hm
        · exact Or.inr ⟨hx, v, List.mem_cons_self v vs', g, hvg, hg⟩
        · exact Or.inr ⟨hx, v', List.mem_cons_of_mem v hv', g, hvg, hg⟩
      · rintro (hm | ⟨hx, v', hv', g, hvg, hg⟩)
        · exact Or.inl (Or.inl hm)
        · rcases List.mem_cons.mp hv' with rfl | hv''
          · exact Or.inl (Or.inr ⟨hx, g, hvg, hg⟩)
          · exact Or.inr ⟨hx, v', hv'', g, hvg, hg⟩

theorem foldl_fiStep_values {f : List (String × JSValue)} :
    ∀ (vs : List JSValue) (r : List (String × JSValue)),
      (∀ p ∈ r, p.2 = lookupProp f p.1) →
      ∀ p ∈ vs.foldl (fiStep f) r, p.2 = lookupProp f p.1 := by
  intro vs
  induction vs with
  | nil => intro r hr; exact hr
  | cons v vs' ih =>
      intro r hr
      rw [List.foldl_cons]
      exact ih (fiStep f r v) (fiStep_values hr v)

theorem map_getOkD_of_all_ok :
    ∀ (ds : List Decoder) (x : JSValue),
      (∀ d ∈ ds, ∃ w, d x = .ok w) →
      ds.map (fun d => d x) = (ds.map (fun d => getOkD (d x))).map .ok := by
  intro ds x
  induction ds with
  | nil => intro _; rfl
  | cons d rest ih =>
      intro hall
      obtain ⟨w, hw⟩ := hall d (List.mem_cons_self d rest)
      simp only [List.map_cons, hw, getOkD]
      exact congrArg _ (ih (fun d' h => hall d' (List.mem_cons_of_mem _ h)))

theorem intersection_all_ok (ds : List Decoder) (x : JSValue)
    (hall : ∀ d ∈ ds, ∃ w, d x = .ok w) :
    intersection ds x
      = .ok (filterIntersection x (ds.map (fun d => getOkD (d x)))) := by
  unfold intersection
  rw [map_getOkD_of_all_ok ds x hall, sequence_ok_map]
  rfl

theorem intersection_first_failure (l1 l2 : List Decoder) (d : Decoder)
    (x : JSValue) (e : String) (hall : ∀ d' ∈ l1, ∃ w, d' x = .ok w)
    (hd : d x = .failure e) :
    intersection (l1 ++ d :: l2) x = .failure e := by
  unfold intersection
  rw [List.map_append, List.map_cons, map_getOkD_of_all_ok l1 x hall, hd,
    sequence_first_failure]
  rfl

theorem filterIntersection_primitive {x : JSValue}
    (h : isPrimitiveB x = true) (vs : List JSValue) :
    filterIntersection x vs = x := by
  simp [filterIntersection, h]

theorem filterIntersection_array {x : JSValue} (h : isArrayB x = true)
    (vs : List JSValue) : filterIntersection x vs = x := by
  cases x with
  | varr xs => rfl
  | vnum n => cases h
  | vnan => cases h
  | vstr s => cases h
  | vbool b => cases h
  | vnull => cases h
  | vundefined => cases h
  | vobj f => cases h

/-- Claim C5: intersection runs every decoder on the same input and
returns the first failure when one fails (whatever the later decoders
are); when all succeed, a primitive (numeric, textual or undefined) input
and an array input are returned unmodified, and a plain object input
yields a fresh object whose keys are exactly the keys of the decoded
branch results that are own properties of the original input, every value
being read from the original input; the specification example evaluates
accordingly. -/
theorem claim_C5 :
    (∀ (l1 l2 : List Decoder) (d : Decoder) (x : JSValue) (e : String),
      (∀ d' ∈ l1, ∃ w, d' x = .ok w) → d x = .failure e →
      intersection (l1 ++ d :: l2) x = .failure e) ∧
    (∀ (ds : List Decoder) (x : JSValue),
      (∀ d ∈ ds, ∃ w, d x = .ok w) → isPrimitiveB x = true →
      intersection ds x = .ok x) ∧
    (∀ (ds : List Decoder) (x : JSValue),
      (∀ d ∈ ds, ∃ w, d x = .ok w) → isArrayB x = true →
      intersection ds x = .ok x) ∧
    (∀ (ds : List Decoder) (f : List (String × JSValue)),
      (∀ d ∈ ds, ∃ w, d (.vobj f) = .ok w) →
      ∃ r, intersection ds (.vobj f) = .ok (.vobj r) ∧
        (∀ p ∈ r, p.2 = lookupProp f p.1) ∧
        (∀ x, x ∈ keysOf r ↔ (hasOwnB f x = true ∧
          ∃ d ∈ ds, ∃ g, d (.vobj f) = .ok (.vobj g) ∧ x ∈ keysOf g))) ∧
    intersection [object [("a", number), ("b", string)],
        object [("c", string), ("b", string)]]
      (.vobj [("a", .vnum 1), ("b", .vstr "x"), ("c", .vstr "y"),
        ("extra", .vstr "z")])
      = .ok (.vobj [("a", .vnum 1), ("b", .vstr "x"), ("c", .vstr "y")]) := by
  refine ⟨intersection_first_failure, ?_, ?_, ?_, rfl⟩
  · intro ds x hall hp
    rw [intersection_all_ok ds x hall, filterIntersection_primitive hp]
  · intro ds x hall ha
    rw [intersection_all_ok ds x hall, filterIntersection_array ha]
  · intro ds f hall
    refine ⟨(ds.map (fun d => getOkD (d (.vobj f)))).foldl (fiStep f) [],
      ?_, ?_, ?_⟩
    · rw [intersection_all_ok ds (.vobj f) hall]
      rfl
    · exact foldl_fiStep_values _ [] (by intro p hp; cases hp)
    · intro x
      rw [mem_keysOf_foldl_fiStep]
      simp only [keysOf, List.map_nil, List.not_mem_nil, false_or]
      constructor
      · rintro ⟨hx, v, hv, g, rfl, hg⟩
        obtain ⟨d, hd, hvd⟩ := List.mem_map.mp hv
        obtain ⟨w, hw⟩ := hall d hd
        refine ⟨hx, d, hd, g, ?_, hg⟩
        rw [hw]
        rw [hw] at hvd
        rw [show getOkD (Result.ok w) = w from rfl] at hvd
        rw [hvd]
      · rintro ⟨hx, d, hd, g, hdg, hg⟩
        refine ⟨hx, getOkD (d (.vobj f)),
          List.mem_map_of_mem _ hd, g, ?_, hg⟩
        rw [hdg]
        rfl

/-- Claim C5 witness: an intersection of a single object decoder on a
plain object input with an extra property, obtained from claim_C5 at
concrete inputs. -/
theorem claim_C5_witness :
    ∃ r, intersection [object [("a", number)]]
        (.vobj [("a", .vnum 1), ("b", .vstr "z")]) = .ok (.vobj r) ∧
      (∀ p ∈ r, p.2 = lookupProp [("a", .vnum 1), ("b", .vstr "z")] p.1) ∧
      (∀ x, x ∈ keysOf r ↔
        (hasOwnB [("a", .vnum 1), ("b", .vstr "z")] x = true ∧
        ∃ d ∈ [object [(("a" : String), (number : Decoder))]], ∃ g,
          d (.vobj [("a", .vnum 1), ("b", .vstr "z")]) = .ok (.vobj g) ∧
          x ∈ keysOf g)) := by
  apply claim_C5.2.2.2.1
  intro d hd
  simp only [List.mem_singleton] at hd
  subst hd
  exact ⟨.vobj [("a", .vnum 1)], rfl⟩

end Decoders
